import Mathlib

/-!
Shallow embedding of `src/ethereum/utils/hexadecimal.py`.

Python strings are modelled as `List Char` and Python `bytes` as `List Nat`
(each entry < 256).  The module's functions delegate to two Python builtins,
which are modelled faithfully for ASCII inputs:

* `bytes.fromhex` (`fromhexAux` below): decodes pairs of hexadecimal digits,
  skipping space characters between pairs (but not inside a pair); it fails
  on any other character and on an incomplete trailing pair.  (CPython 3.11+
  additionally skips the other ASCII whitespace characters; the repository
  predates that, so only the space character is skipped here.)
* `int(_, 16)` (`pyIntBase16` below): strips ASCII whitespace at both ends,
  then accepts an optional single sign, an optional `0x`/`0X` base marker
  (optionally followed by one underscore), and a nonempty run of hexadecimal
  digits with single underscores permitted between digits.

The wrapper constructors `Bytes8`, `Bytes32`, `Hash32`, `Root`, `Bloom`,
`Address`, `Uint` and `U256` live in `ethereum.base_types` /
`ethereum.crypto` / `ethereum.frontier.eth_types`, outside this module;
the specification treats them as opaque external collaborators, so they are
modelled as the identity on the decoded value.
-/

/-- Value of a single hexadecimal digit character, `none` for any other
character.  Matches the ASCII digit set `[0-9a-fA-F]` used by both
`bytes.fromhex` and `int(_, 16)`. -/
def hexDigitValue (c : Char) : Option Nat :=
  if '0' ≤ c ∧ c ≤ '9' then some (c.toNat - '0'.toNat)
  else if 'a' ≤ c ∧ c ≤ 'f' then some (c.toNat - 'a'.toNat + 10)
  else if 'A' ≤ c ∧ c ≤ 'F' then some (c.toNat - 'A'.toNat + 10)
  else none

/-- `bytes.fromhex`: decode hexadecimal digit pairs into bytes, skipping
space characters between pairs.  After the first digit of a pair the very
next character must be the second digit. -/
def fromhexAux : List Char → Option (List Nat)
  | [] => some []
  | c :: rest =>
    if c = ' ' then fromhexAux rest
    else
      match hexDigitValue c, rest with
      | some hi, c2 :: rest2 =>
        match hexDigitValue c2 with
        | some lo => (fromhexAux rest2).map (fun bs => (hi * 16 + lo) :: bs)
        | none => none
      | _, _ => none

/-- ASCII whitespace stripped by `int` at both ends of its argument:
tab, line feed, vertical tab, form feed, carriage return, space. -/
def isPySpace (c : Char) : Bool :=
  (9 ≤ c.toNat ∧ c.toNat ≤ 13) ∨ c.toNat = 32

/-- Strip ASCII whitespace from both ends of a character list. -/
def stripPySpace (s : List Char) : List Char :=
  ((s.dropWhile isPySpace).reverse.dropWhile isPySpace).reverse

/-- Continue parsing hexadecimal digits after at least one digit has been
read, allowing a single underscore between digits, accumulating the value. -/
def hexDigitsCore : Nat → List Char → Option Nat
  | acc, [] => some acc
  | acc, c :: rest =>
    if c = '_' then
      match rest with
      | c2 :: rest2 =>
        match hexDigitValue c2 with
        | some d => hexDigitsCore (acc * 16 + d) rest2
        | none => none
      | [] => none
    else
      match hexDigitValue c with
      | some d => hexDigitsCore (acc * 16 + d) rest
      | none => none

/-- A nonempty run of hexadecimal digits, single underscores allowed
between digits but not leading, trailing or doubled. -/
def parseHexDigits : List Char → Option Nat
  | [] => none
  | c :: rest =>
    match hexDigitValue c with
    | some d => hexDigitsCore d rest
    | none => none

/-- The part of `int(_, 16)` after whitespace stripping and the optional
sign: an optional `0x`/`0X` base marker, optionally followed by one
underscore, then the digit run. -/
def parseAfterSign (s : List Char) : Option Nat :=
  match s with
  | c0 :: c :: rest =>
    if c0 = '0' ∧ (c = 'x' ∨ c = 'X') then
      match rest with
      | c2 :: rest2 => if c2 = '_' then parseHexDigits rest2 else parseHexDigits rest
      | [] => parseHexDigits rest
    else parseHexDigits (c0 :: c :: rest)
  | _ => parseHexDigits s

/-- `int(s, 16)` on ASCII input: strip whitespace at both ends, read an
optional sign, then the (optionally `0x`-marked) digit run.  `none` models
a `ValueError`. -/
def pyIntBase16 (s : List Char) : Option Int :=
  match stripPySpace s with
  | c :: rest =>
    if c = '+' then (parseAfterSign rest).map (fun n => (n : Int))
    else if c = '-' then (parseAfterSign rest).map (fun n => -(n : Int))
    else (parseAfterSign (c :: rest)).map (fun n => (n : Int))
  | [] => (parseAfterSign []).map (fun n => (n : Int))

/-- `str.rjust(w, c)`: left-pad with `c` up to length `w`; a string already
at least `w` long is returned unchanged. -/
def rjust (s : List Char) (w : Nat) (c : Char) : List Char :=
  List.replicate (w - s.length) c ++ s

/-- `has_hex_prefix`: true iff the string starts with the two characters
`0x` (lowercase, as `str.startswith("0x")` tests). -/
def has_hex_prefix (s : List Char) : Bool :=
  s.take 2 = ['0', 'x']

/-- `remove_hex_prefix`: drop the first two characters when the `0x`
marker is present, otherwise return the string unchanged. -/
def remove_hex_prefix (s : List Char) : List Char :=
  if has_hex_prefix s then s.drop 2 else s

/-- `hex_to_bytes`: strip the marker, then `bytes.fromhex`.  `none` models
the `ValueError` the spec calls `DecodeError`. -/
def hex_to_bytes (s : List Char) : Option (List Nat) :=
  fromhexAux ( remove_hex_prefix s)

/-- `hex_to_bytes8`: strip the marker, left-pad the digits to 16 with `0`,
then `bytes.fromhex`.  The `Bytes8` wrapper is external and modelled as the
identity. -/
def hex_to_bytes8 (s : List Char) : Option (List Nat) :=
  fromhexAux (rjust ( remove_hex_prefix s) 16 '0')

/-- `hex_to_bytes32`: strip the marker, left-pad the digits to 64 with `0`,
then `bytes.fromhex`.  The `Bytes32` wrapper is external and modelled as
the identity. -/
def hex_to_bytes32 (s : List Char) : Option (List Nat) :=
  fromhexAux (rjust ( remove_hex_prefix s) 64 '0')

/-- `hex_to_hash`: strip the marker and decode, with no padding.  The
`Hash32` wrapper is external and modelled as the identity. -/
def hex_to_hash (s : List Char) : Option (List Nat) :=
  fromhexAux ( remove_hex_prefix s)

/-- `hex_to_root`: strip the marker and decode, with no padding.  The
`Root` wrapper is external and modelled as the identity. -/
def hex_to_root (s : List Char) : Option (List Nat) :=
  fromhexAux ( remove_hex_prefix s)

/-- `hex_to_bloom`: strip the marker and decode, with no padding.  The
`Bloom` wrapper is external and modelled as the identity. -/
def hex_to_bloom (s : List Char) : Option (List Nat) :=
  fromhexAux ( remove_hex_prefix s)

/-- `hex_to_address`: strip the marker, left-pad the digits to 40 with
`0`, then `bytes.fromhex`.  The `Address` wrapper is external and modelled
as the identity. -/
def hex_to_address (s : List Char) : Option (List Nat) :=
  fromhexAux (rjust ( remove_hex_prefix s) 40 '0')

/-- `hex_to_uint`: strip the marker, then `int(_, 16)`.  `none` models the
`ValueError` the spec calls `ParseError`; the `Uint` wrapper is external
and modelled as the identity. -/
def hex_to_uint (s : List Char) : Option Int :=
  pyIntBase16 ( remove_hex_prefix s)

/-- `hex_to_u256`: strip the marker, then `int(_, 16)`.  The `U256`
wrapper is external and modelled as the identity; no range check happens in
this function. -/
def hex_to_u256 (s : List Char) : Option Int :=
  pyIntBase16 ( remove_hex_prefix s)

/-- The byte list a digit string denotes: decode it after prepending one
`0` digit when its length is odd. -/
def evenPad (d : List Char) : List Char :=
  if d.length % 2 = 1 then '0' :: d else d

/-- Value of a digit string as a base-16 natural number (digits only, most
significant first). -/
def hexValNat (s : List Char) : Nat :=
  s.foldl (fun acc c => acc * 16 + (hexDigitValue c).getD 0) 0

/-- Characters whose parsing under `int(_, 16)` involves none of the
lenient extras: ASCII, not whitespace, not a sign, not an underscore, not a
base-marker letter. -/
abbrev plainChar (c : Char) : Prop :=
  c.toNat < 128 ∧ isPySpace c = false ∧ c ≠ '+' ∧ c ≠ '-' ∧ c ≠ '_' ∧
    c ≠ 'x' ∧ c ≠ 'X'

/-- The `0x` marker test holds exactly when the first two characters are
`0` and `x`. -/
theorem has_hex_prefix_iff (s : List Char) :
    has_hex_prefix s = true ↔ s.take 2 = ['0', 'x'] := by
  simp [ has_hex_prefix]

/-- Stripping the marker from a string that carries it drops exactly the
first two characters. -/
theorem remove_hex_prefix_cons (s : List Char) :
    remove_hex_prefix ('0' :: 'x' :: s) = s := by
  simp [ remove_hex_prefix, has_hex_prefix]

/-- A hexadecimal character is never `x`, so a string of hexadecimal
digits never carries the `0x` marker. -/
theorem no_marker_of_digits (s : List Char)
    (hd : ∀ c ∈ s, (hexDigitValue c).isSome) :
    has_hex_prefix s = false := by
  match s with
  | [] => rfl
  | [c] => simp [ has_hex_prefix]
  | c1 :: c2 :: t =>
    simp only [ has_hex_prefix, List.take, decide_eq_false_iff_not]
    rintro ⟨rfl, rfl, -⟩
    exact absurd (hd 'x' (by simp)) (by decide)

/-- Stripping the marker from an all-digit string is the identity. -/
theorem remove_hex_prefix_digits (s : List Char)
    (hd : ∀ c ∈ s, (hexDigitValue c).isSome) :
    remove_hex_prefix s = s := by
  simp [ remove_hex_prefix, no_marker_of_digits s hd]

/-- Decoding step: a pair of digit characters contributes one byte. -/
theorem fromhexAux_cons_cons (c1 c2 : Char) (rest : List Char) (hi lo : Nat)
    (h1 : hexDigitValue c1 = some hi) (h2 : hexDigitValue c2 = some lo) :
    fromhexAux (c1 :: c2 :: rest) =
      (fromhexAux rest).map (fun bs => (hi * 16 + lo) :: bs) := by
  have hsp : hexDigitValue ' ' = none := by decide
  have hc1 : ¬ c1 = ' ' := by
    intro h
    rw [h, hsp] at h1
    exact Option.noConfusion h1
  conv_lhs => unfold fromhexAux
  rw [if_neg hc1, h1]
  show (match hexDigitValue c2 with
    | some lo => (fromhexAux rest).map (fun bs => (hi * 16 + lo) :: bs)
    | none => none) = (fromhexAux rest).map (fun bs => (hi * 16 + lo) :: bs)
  rw [h2]

/-- An even run of `0` digit characters in front decodes to as many zero
bytes in front. -/
theorem fromhexAux_zeros (k : Nat) (s : List Char) :
    fromhexAux (List.replicate (2 * k) '0' ++ s) =
      (fromhexAux s).map (fun bs => List.replicate k 0 ++ bs) := by
  induction k with
  | zero =>
    simp only [Nat.mul_zero, List.replicate_zero, List.nil_append]
    cases fromhexAux s <;> rfl
  | succ n ih =>
    have hrep : List.replicate (2 * (n + 1)) '0' = '0' :: '0' :: List.replicate (2 * n) '0' := by
      rw [show 2 * (n + 1) = 2 * n + 1 + 1 by ring]
      rfl
    rw [hrep, List.cons_append, List.cons_append,
      fromhexAux_cons_cons '0' '0' _ 0 0 (by decide) (by decide), ih]
    cases fromhexAux s with
    | none => rfl
    | some bs => simp [List.replicate_succ]

/-- A leading space character is skipped by the decoder. -/
theorem fromhexAux_space (rest : List Char) :
    fromhexAux (' ' :: rest) = fromhexAux rest := by
  conv_lhs => unfold fromhexAux
  rw [if_pos rfl]

/-- A leading non-space, non-digit character makes decoding fail. -/
theorem fromhexAux_head_bad (c : Char) (rest : List Char) (hc : ¬ c = ' ')
    (h : hexDigitValue c = none) : fromhexAux (c :: rest) = none := by
  conv_lhs => unfold fromhexAux
  rw [if_neg hc, h]

/-- A lone trailing non-space character makes decoding fail (incomplete
pair). -/
theorem fromhexAux_single (c : Char) (hc : ¬ c = ' ') :
    fromhexAux [c] = none := by
  conv_lhs => unfold fromhexAux
  rw [if_neg hc]
  cases h : hexDigitValue c <;> rfl

/-- A non-digit directly after the first digit of a pair makes decoding
fail. -/
theorem fromhexAux_snd_bad (c1 c2 : Char) (rest : List Char) (hi : Nat)
    (h1 : hexDigitValue c1 = some hi) (h2 : hexDigitValue c2 = none) :
    fromhexAux (c1 :: c2 :: rest) = none := by
  have hsp : hexDigitValue ' ' = none := by decide
  have hc1 : ¬ c1 = ' ' := by
    intro h
    rw [h, hsp] at h1
    exact Option.noConfusion h1
  conv_lhs => unfold fromhexAux
  rw [if_neg hc1, h1]
  show (match hexDigitValue c2 with
    | some lo => (fromhexAux rest).map (fun bs => (hi * 16 + lo) :: bs)
    | none => none) = none
  rw [h2]

/-- An even-length string of hexadecimal digits decodes to exactly half as
many bytes. -/
theorem fromhexAux_digits : ∀ (s : List Char),
    (∀ c ∈ s, (hexDigitValue c).isSome) → s.length % 2 = 0 →
    ∃ bs, fromhexAux s = some bs ∧ 2 * bs.length = s.length
  | [], _, _ => ⟨[], rfl, rfl⟩
  | [c], _, he => by simp at he
  | c1 :: c2 :: rest, hd, he => by
    obtain ⟨hi, h1⟩ := Option.isSome_iff_exists.mp (hd c1 (by simp))
    obtain ⟨lo, h2⟩ := Option.isSome_iff_exists.mp (hd c2 (by simp))
    obtain ⟨bs, hbs, hlen⟩ := fromhexAux_digits rest (fun c hc => hd c (by simp [hc]))
      (by simp only [List.length_cons] at he ⊢; omega)
    refine ⟨(hi * 16 + lo) :: bs, ?_, ?_⟩
    · rw [fromhexAux_cons_cons c1 c2 rest hi lo h1 h2, hbs]
      rfl
    · simp only [List.length_cons]
      omega

/-- On space-free input, decoding fails exactly when the length is odd or
some character is not a hexadecimal digit. -/
theorem fromhexAux_none_iff : ∀ (s : List Char), (∀ c ∈ s, ¬ c = ' ') →
    (fromhexAux s = none ↔
      s.length % 2 = 1 ∨ ∃ c ∈ s, hexDigitValue c = none)
  | [], _ => by
    rw [show fromhexAux [] = some [] from rfl]
    simp
  | [c], h => by
    have hc : ¬ c = ' ' := h c (by simp)
    simp [fromhexAux_single c hc]
  | c1 :: c2 :: rest, h => by
    have hc1 : ¬ c1 = ' ' := h c1 (by simp)
    have hc2 : ¬ c2 = ' ' := h c2 (by simp)
    have ih := fromhexAux_none_iff rest (fun c hc => h c (by simp [hc]))
    cases hE1 : hexDigitValue c1 with
    | none =>
      exact iff_of_true (fromhexAux_head_bad c1 _ hc1 hE1)
        (Or.inr ⟨c1, by simp, hE1⟩)
    | some hi =>
      cases hE2 : hexDigitValue c2 with
      | none =>
        exact iff_of_true (fromhexAux_snd_bad c1 c2 rest hi hE1 hE2)
          (Or.inr ⟨c2, by simp, hE2⟩)
      | some lo =>
        rw [fromhexAux_cons_cons c1 c2 rest hi lo hE1 hE2, Option.map_eq_none', ih]
        constructor
        · rintro (hodd | ⟨c, hc, hnone⟩)
          · left
            simp only [List.length_cons]
            omega
          · exact Or.inr ⟨c, by simp [hc], hnone⟩
        · rintro (hodd | ⟨c, hc, hnone⟩)
          · left
            simp only [List.length_cons] at hodd
            omega
          · rcases List.mem_cons.mp hc with rfl | hc'
            · rw [hE1] at hnone
              exact absurd hnone (by simp)
            · rcases List.mem_cons.mp hc' with rfl | hc''
              · rw [hE2] at hnone
                exact absurd hnone (by simp)
              · exact Or.inr ⟨c, hc'', hnone⟩

/-- A successful decode yields one byte per two hexadecimal digit
characters of the input (spaces contribute nothing). -/
theorem fromhexAux_some_length : ∀ (s : List Char) (bs : List Nat),
    fromhexAux s = some bs →
    2 * bs.length = (s.filter (fun c => (hexDigitValue c).isSome)).length
  | [], bs, h => by
    rw [show fromhexAux [] = some [] from rfl] at h
    cases h
    rfl
  | c :: rest, bs, h => by
    by_cases hc : c = ' '
    · subst hc
      rw [fromhexAux_space rest] at h
      have ih := fromhexAux_some_length rest bs h
      rw [List.filter_cons]
      simp only [show ((hexDigitValue ' ').isSome = false) from by decide,
        Bool.false_eq_true, if_false]
      exact ih
    · cases hE1 : hexDigitValue c with
      | none =>
        rw [fromhexAux_head_bad c rest hc hE1] at h
        exact Option.noConfusion h
      | some hi =>
        cases rest with
        | nil =>
          rw [fromhexAux_single c hc] at h
          exact Option.noConfusion h
        | cons c2 rest2 =>
          cases hE2 : hexDigitValue c2 with
          | none =>
            rw [fromhexAux_snd_bad c c2 rest2 hi hE1 hE2] at h
            exact Option.noConfusion h
          | some lo =>
            rw [fromhexAux_cons_cons c c2 rest2 hi lo hE1 hE2] at h
            obtain ⟨bs', hbs', rfl⟩ := Option.map_eq_some'.mp h
            have ih := fromhexAux_some_length rest2 bs' hbs'
            simp only [List.filter_cons, hE1, hE2, Option.isSome_some, if_true,
              List.length_cons]
            omega

/-- `dropWhile` is the identity when no element satisfies the predicate. -/
theorem dropWhile_id_of_none (p : Char → Bool) :
    ∀ (t : List Char), (∀ c ∈ t, p c = false) → t.dropWhile p = t
  | [], _ => rfl
  | c :: t', h => by
    rw [List.dropWhile_cons, h c (by simp)]
    simp

/-- Whitespace stripping is the identity on whitespace-free strings. -/
theorem stripPySpace_id (t : List Char) (h : ∀ c ∈ t, isPySpace c = false) :
    stripPySpace t = t := by
  unfold stripPySpace
  rw [dropWhile_id_of_none isPySpace t h,
    dropWhile_id_of_none isPySpace t.reverse (fun c hc => h c (List.mem_reverse.mp hc)),
    List.reverse_reverse]

/-- On underscore-free input, the digit-run continuation succeeds exactly
when every character is a digit, folding the digits onto the
accumulator. -/
theorem hexDigitsCore_plain : ∀ (t : List Char) (acc : Nat), (∀ c ∈ t, ¬ c = '_') →
    hexDigitsCore acc t =
      if ∃ c ∈ t, hexDigitValue c = none then none
      else some (t.foldl (fun a c => a * 16 + (hexDigitValue c).getD 0) acc)
  | [], acc, _ => by
    rw [show hexDigitsCore acc [] = some acc from rfl]
    simp
  | c :: t', acc, h => by
    have hc : ¬ c = '_' := h c (by simp)
    have ih := hexDigitsCore_plain t' (acc * 16 + (hexDigitValue c).getD 0)
      (fun d hd => h d (by simp [hd]))
    conv_lhs => unfold hexDigitsCore
    rw [if_neg hc]
    cases hE : hexDigitValue c with
    | none =>
      have : ∃ d ∈ c :: t', hexDigitValue d = none := ⟨c, by simp, hE⟩
      rw [if_pos this]
    | some v =>
      show hexDigitsCore (acc * 16 + v) t' = _
      rw [show acc * 16 + v = acc * 16 + (hexDigitValue c).getD 0 from by rw [hE]; rfl, ih]
      by_cases hex : ∃ d ∈ t', hexDigitValue d = none
      · rw [if_pos hex, if_pos (by obtain ⟨d, hd, hdn⟩ := hex; exact ⟨d, by simp [hd], hdn⟩)]
      · rw [if_neg hex, if_neg ?_, List.foldl_cons]
        rintro ⟨d, hd, hdn⟩
        rcases List.mem_cons.mp hd with rfl | hd'
        · rw [hE] at hdn
          exact Option.noConfusion hdn
        · exact hex ⟨d, hd', hdn⟩

/-- On underscore-free input, the digit-run parser fails exactly on the
empty string or a non-digit character, and otherwise returns the base-16
value of the digits. -/
theorem parseHexDigits_plain (t : List Char) (h : ∀ c ∈ t, ¬ c = '_') :
    parseHexDigits t =
      if t = [] ∨ ∃ c ∈ t, hexDigitValue c = none then none
      else some (hexValNat t) := by
  cases t with
  | nil => simp [parseHexDigits]
  | cons c t' =>
    cases hE : hexDigitValue c with
    | none =>
      rw [show parseHexDigits (c :: t') =
          (match hexDigitValue c with
            | some d => hexDigitsCore d t'
            | none => none) from rfl, hE,
        if_pos (Or.inr ⟨c, by simp, hE⟩)]
    | some v =>
      rw [show parseHexDigits (c :: t') =
          (match hexDigitValue c with
            | some d => hexDigitsCore d t'
            | none => none) from rfl, hE]
      show hexDigitsCore v t' = _
      rw [hexDigitsCore_plain t' v (fun d hd => h d (by simp [hd]))]
      by_cases hex : ∃ d ∈ t', hexDigitValue d = none
      · rw [if_pos hex,
          if_pos (Or.inr (by obtain ⟨d, hd, hdn⟩ := hex; exact ⟨d, by simp [hd], hdn⟩))]
      · rw [if_neg hex, if_neg ?_]
        · unfold hexValNat
          rw [List.foldl_cons]
          have hv : (hexDigitValue c).getD 0 = v := by rw [hE]; rfl
          rw [hv]
          norm_num
        · rintro (hnil | ⟨d, hd, hdn⟩)
          · exact List.noConfusion hnil
          · rcases List.mem_cons.mp hd with rfl | hd'
            · rw [hE] at hdn
              exact Option.noConfusion hdn
            · exact hex ⟨d, hd', hdn⟩

/-- When the second character is not a base-marker letter, the after-sign
parser is just the digit-run parser. -/
theorem parseAfterSign_no_marker (c c2 : Char) (rest2 : List Char)
    (hx : ¬ c2 = 'x') (hX : ¬ c2 = 'X') :
    parseAfterSign (c :: c2 :: rest2) = parseHexDigits (c :: c2 :: rest2) := by
  have hcond : ¬ (c = '0' ∧ (c2 = 'x' ∨ c2 = 'X')) := by
    rintro ⟨-, h1 | h2⟩
    exacts [hx h1, hX h2]
  cases rest2 with
  | nil =>
    show (if c = '0' ∧ (c2 = 'x' ∨ c2 = 'X') then parseHexDigits []
      else parseHexDigits [c, c2]) = _
    rw [if_neg hcond]
  | cons c3 rest3 =>
    show (if c = '0' ∧ (c2 = 'x' ∨ c2 = 'X') then
        (if c3 = '_' then parseHexDigits rest3 else parseHexDigits (c3 :: rest3))
      else parseHexDigits (c :: c2 :: c3 :: rest3)) = _
    rw [if_neg hcond]

/-- On strings of plain characters, `int(_, 16)` is exactly the digit-run
parser: no whitespace stripping, sign, base marker or underscore grouping
is involved. -/
theorem pyIntBase16_plain (t : List Char) (h : ∀ c ∈ t, plainChar c) :
    pyIntBase16 t = (parseHexDigits t).map (fun n => (n : Int)) := by
  have hs : stripPySpace t = t := stripPySpace_id t (fun c hc => (h c hc).2.1)
  cases t with
  | nil => rfl
  | cons c rest =>
    have hc := h c (by simp)
    conv_lhs => unfold pyIntBase16
    rw [hs]
    show (if c = '+' then (parseAfterSign rest).map (fun n => (n : Int))
      else if c = '-' then (parseAfterSign rest).map (fun n => -(n : Int))
      else (parseAfterSign (c :: rest)).map (fun n => (n : Int))) = _
    rw [if_neg hc.2.2.1, if_neg hc.2.2.2.1]
    have hpa : parseAfterSign (c :: rest) = parseHexDigits (c :: rest) := by
      cases rest with
      | nil => rfl
      | cons c2 rest2 =>
        have hc2 := h c2 (by simp)
        exact parseAfterSign_no_marker c c2 rest2 hc2.2.2.2.2.2.1 hc2.2.2.2.2.2.2
    rw [hpa]

/-- `evenPad` keeps the string made of hexadecimal digits. -/
theorem evenPad_digits (d : List Char) (hd : ∀ c ∈ d, (hexDigitValue c).isSome) :
    ∀ c ∈ evenPad d, (hexDigitValue c).isSome := by
  intro c hc
  unfold evenPad at hc
  by_cases hp : d.length % 2 = 1
  · rw [if_pos hp] at hc
    rcases List.mem_cons.mp hc with rfl | hc'
    · decide
    · exact hd c hc'
  · rw [if_neg hp] at hc
    exact hd c hc

/-- `evenPad` rounds the length up to the next even number. -/
theorem evenPad_length (d : List Char) :
    (evenPad d).length = 2 * ((d.length + 1) / 2) := by
  unfold evenPad
  by_cases hp : d.length % 2 = 1
  · rw [if_pos hp]
    simp only [List.length_cons]
    omega
  · rw [if_neg hp]
    omega

/-- Padding a string already at least as long as the target width is the
identity. -/
theorem rjust_long (d : List Char) (w : Nat) (h : w ≤ d.length) :
    rjust d w '0' = d := by
  unfold rjust
  rw [Nat.sub_eq_zero_of_le h, List.replicate_zero, List.nil_append]

/-- Decoding a digit string left-padded with `0` to `2 * w` digits yields
the digits' bytes right-aligned behind zero bytes, `w` bytes in total. -/
theorem rjust_decode (w : Nat) (d : List Char)
    (hd : ∀ c ∈ d, (hexDigitValue c).isSome) (hw : d.length ≤ 2 * w) :
    ∃ tail, fromhexAux (evenPad d) = some tail ∧
      fromhexAux (rjust d (2 * w) '0') =
        some (List.replicate (w - tail.length) 0 ++ tail) ∧
      (List.replicate (w - tail.length) 0 ++ tail).length = w := by
  obtain ⟨tail, htail, hlen⟩ := fromhexAux_digits (evenPad d) (evenPad_digits d hd)
    (by rw [evenPad_length]; omega)
  have htl : tail.length = (d.length + 1) / 2 := by
    rw [evenPad_length] at hlen
    omega
  have hsplit : rjust d (2 * w) '0' =
      List.replicate (2 * (w - tail.length)) '0' ++ evenPad d := by
    unfold rjust evenPad
    by_cases hp : d.length % 2 = 1
    · rw [if_pos hp, show 2 * w - d.length = 2 * (w - tail.length) + 1 from by omega,
        List.replicate_succ', List.append_assoc]
      rfl
    · rw [if_neg hp]
      congr 2
      omega
  rw [hsplit, fromhexAux_zeros (w - tail.length) (evenPad d), htail]
  refine ⟨tail, rfl, rfl, ?_⟩
  simp only [List.length_append, List.length_replicate]
  omega

/-- C8: `has_hex_prefix` holds exactly when the string starts with the
lowercase marker `0x`; when it does, `remove_hex_prefix` drops exactly the
first two characters, and otherwise it returns the string unchanged. -/
theorem marker_test_and_strip (s : List Char) :
    ( has_hex_prefix s = true ↔ s.take 2 = ['0', 'x']) ∧
    ( has_hex_prefix s = true → remove_hex_prefix s = s.drop 2) ∧
    ( has_hex_prefix s = false → remove_hex_prefix s = s) :=
  ⟨has_hex_prefix_iff s,
    fun h => by simp [ remove_hex_prefix, h],
    fun h => by simp [ remove_hex_prefix, h]⟩

/-- Witness for `marker_test_and_strip` at the inputs `"0xab"` and
`"zz"`. -/
theorem marker_test_and_strip_w :
    remove_hex_prefix (String.toList "0xab") = ['a', 'b'] ∧
    remove_hex_prefix (String.toList "zz") = String.toList "zz" :=
  ⟨((marker_test_and_strip (String.toList "0xab")).2.1 (by decide)).trans (by decide),
    (marker_test_and_strip (String.toList "zz")).2.2 (by decide)⟩

/-- Counterexample to C7 as stated: on `"0x0xab"` a second application of
`remove_hex_prefix` strips again, so the composite is not idempotent on
every string. -/
theorem remove_twice_ne_remove_once :
    ¬ remove_hex_prefix ( remove_hex_prefix (String.toList "0x0xab")) =
        remove_hex_prefix (String.toList "0x0xab") := by
  decide

/-- C7 (amended): `remove_hex_prefix` is idempotent on every string that
does not begin with the four characters `0x0x`, i.e. whenever the
once-stripped string no longer carries the marker. -/
theorem remove_hex_prefix_idem (s : List Char)
    (h : ¬ s.take 4 = ['0', 'x', '0', 'x']) :
    remove_hex_prefix ( remove_hex_prefix s) = remove_hex_prefix s := by
  cases hp : has_hex_prefix s with
  | false => simp [ remove_hex_prefix, hp]
  | true =>
    have h2 := (has_hex_prefix_iff s).mp hp
    cases s with
    | nil => simp at h2
    | cons c1 s1 =>
      cases s1 with
      | nil => simp at h2
      | cons c2 t =>
        have hc : c1 = '0' ∧ c2 = 'x' := by simpa using h2
        obtain ⟨rfl, rfl⟩ := hc
        rw [remove_hex_prefix_cons]
        have ht2 : ¬ t.take 2 = ['0', 'x'] := by
          intro hcon
          exact h (by
            rw [show ('0' :: 'x' :: t).take 4 = '0' :: 'x' :: t.take 2 from rfl, hcon])
        have ht : has_hex_prefix t = false := by
          simp [ has_hex_prefix, ht2]
        simp [ remove_hex_prefix, ht]

/-- Witness for `remove_hex_prefix_idem` at the input `"0xab"`. -/
theorem remove_hex_prefix_idem_w :
    remove_hex_prefix ( remove_hex_prefix (String.toList "0xab")) =
      remove_hex_prefix (String.toList "0xab") :=
  remove_hex_prefix_idem (String.toList "0xab") (by decide)

/-- C6: prepending the `0x` marker to a valid even-length digit string
does not change the decoded bytes. -/
theorem hex_to_bytes_marker_invariant (s : List Char)
    (hd : ∀ c ∈ s, (hexDigitValue c).isSome) (he : s.length % 2 = 0) :
    hex_to_bytes ('0' :: 'x' :: s) = hex_to_bytes s := by
  show fromhexAux ( remove_hex_prefix ('0' :: 'x' :: s)) =
    fromhexAux ( remove_hex_prefix s)
  rw [remove_hex_prefix_cons, remove_hex_prefix_digits s hd]

/-- Witness for `hex_to_bytes_marker_invariant` at the digit string
`"ab"`. -/
theorem hex_to_bytes_marker_invariant_w :
    hex_to_bytes ('0' :: 'x' :: ['a', 'b']) = hex_to_bytes ['a', 'b'] :=
  hex_to_bytes_marker_invariant ['a', 'b'] (by decide) (by decide)

/-- C9: `hex_to_u256` parses exactly as `hex_to_uint` on every input, and
performs no range check of its own: a 260-bit value passes through. -/
theorem hex_to_u256_matches_uint :
    (∀ s : List Char, hex_to_u256 s = hex_to_uint s) ∧
    ∃ v : Int, hex_to_u256 ('0' :: 'x' :: List.replicate 65 'f') = some v ∧
      (2 : Int) ^ 256 < v := by
  refine ⟨fun s => rfl,
    (1852673427797059126777135760139006525652319754650249024631321344126610074238975 : Int),
    by decide, by norm_num⟩

/-- C10: `hex_to_bytes` accepts the empty string and the bare marker,
returning the empty byte sequence, while the integer conversions reject
both. -/
theorem empty_and_bare_marker :
    hex_to_bytes (String.toList "") = some [] ∧
    hex_to_bytes (String.toList "0x") = some [] ∧
    hex_to_uint (String.toList "") = none ∧
    hex_to_uint (String.toList "0x") = none ∧
    hex_to_u256 (String.toList "") = none ∧
    hex_to_u256 (String.toList "0x") = none := by
  decide

/-- Counterexample to C2 as stated: `"0xab cd"` contains a character (the
space) outside the hexadecimal digits, yet `hex_to_bytes` succeeds,
because `bytes.fromhex` skips spaces between digit pairs. -/
theorem hex_to_bytes_space_cex :
    (∃ c ∈ remove_hex_prefix (String.toList "0xab cd"), hexDigitValue c = none) ∧
    hex_to_bytes (String.toList "0xab cd") = some [171, 205] := by
  decide

/-- C2 (amended): on inputs whose stripped form is free of ASCII
whitespace, `hex_to_bytes` fails exactly when the stripped string has an
odd number of digits or a character outside the hexadecimal digits; the
two error examples fail as claimed. -/
theorem hex_to_bytes_error_iff :
    (∀ s : List Char, (∀ c ∈ remove_hex_prefix s, isPySpace c = false) →
      (hex_to_bytes s = none ↔
        ( remove_hex_prefix s).length % 2 = 1 ∨
          ∃ c ∈ remove_hex_prefix s, hexDigitValue c = none)) ∧
    hex_to_bytes (String.toList "0xg1") = none ∧
    hex_to_bytes (String.toList "0xabc") = none := by
  refine ⟨fun s h => fromhexAux_none_iff ( remove_hex_prefix s) ?_, by decide, by decide⟩
  intro c hc hceq
  subst hceq
  exact absurd (h ' ' hc) (by decide)

/-- Witness for `hex_to_bytes_error_iff` at the input `"0xg1"`. -/
theorem hex_to_bytes_error_iff_w :
    hex_to_bytes (String.toList "0xg1") = none ↔
      (( remove_hex_prefix (String.toList "0xg1")).length % 2 = 1 ∨
        ∃ c ∈ remove_hex_prefix (String.toList "0xg1"), hexDigitValue c = none) :=
  hex_to_bytes_error_iff.1 (String.toList "0xg1") (by decide)

/-- Counterexample to C3 as stated: `"0x+ff"` strips to `"+ff"`, which
contains a non-digit character, yet `hex_to_uint` succeeds because
`int(_, 16)` accepts a leading sign. -/
theorem hex_to_uint_sign_cex :
    (∃ c ∈ remove_hex_prefix (String.toList "0x+ff"), hexDigitValue c = none) ∧
    hex_to_uint (String.toList "0x+ff") = some 255 := by
  decide

/-- C3 (amended): on inputs whose stripped form contains only plain ASCII
characters (no whitespace, sign, underscore or base-marker letter),
`hex_to_uint` fails exactly when the stripped string is empty or contains
a non-digit, and otherwise returns its base-16 value, with no upper bound;
`hex_to_uint "0xff"` is `255`. -/
theorem hex_to_uint_error_iff :
    (∀ s : List Char, (∀ c ∈ remove_hex_prefix s, plainChar c) →
      ((hex_to_uint s = none ↔
          remove_hex_prefix s = [] ∨
          ∃ c ∈ remove_hex_prefix s, hexDigitValue c = none) ∧
        ∀ v, hex_to_uint s = some v →
          v = (hexValNat ( remove_hex_prefix s) : Int))) ∧
    hex_to_uint (String.toList "0xff") = some 255 := by
  refine ⟨fun s h => ?_, by decide⟩
  have hu : ∀ c ∈ remove_hex_prefix s, ¬ c = '_' :=
    fun c hc => (h c hc).2.2.2.2.1
  have h1 : hex_to_uint s =
      (parseHexDigits ( remove_hex_prefix s)).map (fun n => (n : Int)) :=
    pyIntBase16_plain ( remove_hex_prefix s) h
  rw [h1, parseHexDigits_plain ( remove_hex_prefix s) hu]
  by_cases hb : remove_hex_prefix s = [] ∨
      ∃ c ∈ remove_hex_prefix s, hexDigitValue c = none
  · rw [if_pos hb]
    exact ⟨iff_of_true rfl hb, fun v hv => Option.noConfusion hv⟩
  · rw [if_neg hb]
    refine ⟨iff_of_false (by simp) hb, fun v hv => ?_⟩
    exact (Option.some_inj.mp hv).symm

/-- Witness for `hex_to_uint_error_iff` at the input `"ff"`. -/
theorem hex_to_uint_error_iff_w :
    hex_to_uint (String.toList "ff") = none ↔
      ( remove_hex_prefix (String.toList "ff") = [] ∨
        ∃ c ∈ remove_hex_prefix (String.toList "ff"), hexDigitValue c = none) :=
  (hex_to_uint_error_iff.1 (String.toList "ff") (by decide)).1

/-- C1: for a string of hexadecimal digits with at most `2 * width`
digits, the padded fixed-width conversions return exactly `width` bytes,
the decoded digits right-aligned behind leading zero bytes; in particular
`hex_to_address "0x1234"` is 18 zero bytes followed by `0x12 0x34`. -/
theorem padded_fixed_width_ok (d : List Char)
    (hd : ∀ c ∈ d, (hexDigitValue c).isSome) :
    (d.length ≤ 16 → ∃ tail, fromhexAux (evenPad d) = some tail ∧
      hex_to_bytes8 ('0' :: 'x' :: d) =
        some (List.replicate (8 - tail.length) 0 ++ tail) ∧
      (List.replicate (8 - tail.length) 0 ++ tail).length = 8) ∧
    (d.length ≤ 64 → ∃ tail, fromhexAux (evenPad d) = some tail ∧
      hex_to_bytes32 ('0' :: 'x' :: d) =
        some (List.replicate (32 - tail.length) 0 ++ tail) ∧
      (List.replicate (32 - tail.length) 0 ++ tail).length = 32) ∧
    (d.length ≤ 40 → ∃ tail, fromhexAux (evenPad d) = some tail ∧
      hex_to_address ('0' :: 'x' :: d) =
        some (List.replicate (20 - tail.length) 0 ++ tail) ∧
      (List.replicate (20 - tail.length) 0 ++ tail).length = 20) ∧
    hex_to_address (String.toList "0x1234") =
      some (List.replicate 18 0 ++ [18, 52]) := by
  refine ⟨fun hw => ?_, fun hw => ?_, fun hw => ?_, by decide⟩
  · obtain ⟨tail, h1, h2, h3⟩ := rjust_decode 8 d hd (by omega)
    refine ⟨tail, h1, ?_, h3⟩
    show fromhexAux (rjust ( remove_hex_prefix ('0' :: 'x' :: d)) 16 '0') = _
    rw [remove_hex_prefix_cons]
    exact h2
  · obtain ⟨tail, h1, h2, h3⟩ := rjust_decode 32 d hd (by omega)
    refine ⟨tail, h1, ?_, h3⟩
    show fromhexAux (rjust ( remove_hex_prefix ('0' :: 'x' :: d)) 64 '0') = _
    rw [remove_hex_prefix_cons]
    exact h2
  · obtain ⟨tail, h1, h2, h3⟩ := rjust_decode 20 d hd (by omega)
    refine ⟨tail, h1, ?_, h3⟩
    show fromhexAux (rjust ( remove_hex_prefix ('0' :: 'x' :: d)) 40 '0') = _
    rw [remove_hex_prefix_cons]
    exact h2

/-- Witness for `padded_fixed_width_ok` at the digit string `"1234"`. -/
theorem padded_fixed_width_ok_w :
    hex_to_bytes8 ('0' :: 'x' :: ['1', '2', '3', '4']) =
      some [0, 0, 0, 0, 0, 0, 18, 52] := by
  obtain ⟨tail, h1, h2, h3⟩ :=
    (padded_fixed_width_ok ['1', '2', '3', '4'] (by decide)).1 (by decide)
  have ht : tail = [18, 52] := by
    rw [show fromhexAux (evenPad ['1', '2', '3', '4']) = some [18, 52] from by decide]
      at h1
    exact (Option.some_inj.mp h1).symm
  subst ht
  rw [h2]
  decide

/-- C4: the hash, root and bloom conversions strip the marker and decode
with no padding and no length check: a successful decode has one byte per
two digits of the stripped input, whatever that is; `hex_to_hash "0x1234"`
is the 2-byte sequence `0x12 0x34`, not a 32-byte value. -/
theorem unpadded_no_length_check :
    (∀ s : List Char,
      hex_to_hash s = hex_to_bytes s ∧
      hex_to_root s = hex_to_bytes s ∧
      hex_to_bloom s = hex_to_bytes s ∧
      ∀ bs, hex_to_hash s = some bs →
        2 * bs.length =
          (( remove_hex_prefix s).filter
            (fun c => (hexDigitValue c).isSome)).length) ∧
    hex_to_hash (String.toList "0x1234") = some [18, 52] :=
  ⟨fun s => ⟨rfl, rfl, rfl, fun bs h => fromhexAux_some_length _ bs h⟩, by decide⟩

/-- Witness for `unpadded_no_length_check` at the input `"0x1234"`. -/
theorem unpadded_no_length_check_w :
    2 * ([18, 52] : List Nat).length =
      (( remove_hex_prefix (String.toList "0x1234")).filter
        (fun c => (hexDigitValue c).isSome)).length :=
  (unpadded_no_length_check.1 (String.toList "0x1234")).2.2.2 [18, 52] (by decide)

/-- C5: when a valid even-length digit string is longer than `2 * width`
digits, the fixed-width conversions add no padding, decode the longer
string like the unpadded base conversion, and return more than `width`
bytes without rejecting the input. -/
theorem oversize_not_rejected (d : List Char)
    (hd : ∀ c ∈ d, (hexDigitValue c).isSome) (he : d.length % 2 = 0) :
    (16 < d.length →
      hex_to_bytes8 ('0' :: 'x' :: d) = hex_to_bytes ('0' :: 'x' :: d) ∧
      ∃ bs, hex_to_bytes8 ('0' :: 'x' :: d) = some bs ∧ 8 < bs.length) ∧
    (64 < d.length →
      hex_to_bytes32 ('0' :: 'x' :: d) = hex_to_bytes ('0' :: 'x' :: d) ∧
      ∃ bs, hex_to_bytes32 ('0' :: 'x' :: d) = some bs ∧ 32 < bs.length) ∧
    (40 < d.length →
      hex_to_address ('0' :: 'x' :: d) = hex_to_bytes ('0' :: 'x' :: d) ∧
      ∃ bs, hex_to_address ('0' :: 'x' :: d) = some bs ∧ 20 < bs.length) := by
  obtain ⟨bs, hbs, hlen⟩ := fromhexAux_digits d hd he
  refine ⟨fun hw => ⟨?_, bs, ?_, by omega⟩,
    fun hw => ⟨?_, bs, ?_, by omega⟩, fun hw => ⟨?_, bs, ?_, by omega⟩⟩
  · show fromhexAux (rjust ( remove_hex_prefix ('0' :: 'x' :: d)) 16 '0') =
      fromhexAux ( remove_hex_prefix ('0' :: 'x' :: d))
    rw [remove_hex_prefix_cons, rjust_long d 16 (by omega)]
  · show fromhexAux (rjust ( remove_hex_prefix ('0' :: 'x' :: d)) 16 '0') = some bs
    rw [remove_hex_prefix_cons, rjust_long d 16 (by omega)]
    exact hbs
  · show fromhexAux (rjust ( remove_hex_prefix ('0' :: 'x' :: d)) 64 '0') =
      fromhexAux ( remove_hex_prefix ('0' :: 'x' :: d))
    rw [remove_hex_prefix_cons, rjust_long d 64 (by omega)]
  · show fromhexAux (rjust ( remove_hex_prefix ('0' :: 'x' :: d)) 64 '0') = some bs
    rw [remove_hex_prefix_cons, rjust_long d 64 (by omega)]
    exact hbs
  · show fromhexAux (rjust ( remove_hex_prefix ('0' :: 'x' :: d)) 40 '0') =
      fromhexAux ( remove_hex_prefix ('0' :: 'x' :: d))
    rw [remove_hex_prefix_cons, rjust_long d 40 (by omega)]
  · show fromhexAux (rjust ( remove_hex_prefix ('0' :: 'x' :: d)) 40 '0') = some bs
    rw [remove_hex_prefix_cons, rjust_long d 40 (by omega)]
    exact hbs

/-- Witness for `oversize_not_rejected` at a 66-digit string. -/
theorem oversize_not_rejected_w :
    hex_to_bytes8 ('0' :: 'x' :: List.replicate 66 'a') =
      hex_to_bytes ('0' :: 'x' :: List.replicate 66 'a') ∧
    hex_to_bytes32 ('0' :: 'x' :: List.replicate 66 'a') =
      hex_to_bytes ('0' :: 'x' :: List.replicate 66 'a') ∧
    hex_to_address ('0' :: 'x' :: List.replicate 66 'a') =
      hex_to_bytes ('0' :: 'x' :: List.replicate 66 'a') := by
  have h := oversize_not_rejected (List.replicate 66 'a') (by decide) (by decide)
  exact ⟨(h.1 (by decide)).1, (h.2.1 (by decide)).1, (h.2.2 (by decide)).1⟩
